import Mathlib

/-!
Verification of the riemann-rs serialization core (`src/core/src/ser.rs`,
`src/src/hashes/hash256.rs`).

Shallow embedding conventions:
* Bytes are `Nat` values (with `< 256` bounds stated where a claim needs them).
* A byte source (`std::io::Read` over an in-memory cursor/slice) is a
  `List Nat`; reading consumes from the front.  `read_exact` fails (with the
  IO error) when too few bytes remain; a bare `read` call copies
  `min (requested, available)` bytes, which is the cursor semantics the
  source relies on in `read_compact_int`.
* A byte sink (`std::io::Write` into a `Vec<u8>`) accumulates a `List Nat`
  and never fails; `write` returns the number of bytes written.
* Fallible operations return `Except SerError`, mirroring `SerResult`.
* Machine integers are `Nat`; `u64::to_le_bytes` is `leBytes 8`,
  `u64::from_le_bytes` is `leDecode` on an 8-byte buffer.
-/

/-- Model of the `SerError` enum from `ser.rs`: the tagged error union for
(de)serialization failures. -/
inductive SerError where
  | NonMinimalVarInt : SerError
  | IOError : SerError
  | FromHexError : SerError
  | DecodeError : SerError
  | ComponentError : String → SerError
deriving DecidableEq, Repr

/-- Model of `prefix_byte_len`: the minimal total encoded length (1, 3, 5 or 9
bytes) of a compact-size integer for the value `number`. -/
def prefix_byte_len (number : Nat) : Nat :=
  if number ≤ 0xfc then 1
  else if number ≤ 0xffff then 3
  else if number ≤ 0xffffffff then 5
  else 9

/-- Model of `first_byte_from_len`: the 1-byte flag that announces an encoded
length of 3, 5 or 9 bytes; `none` for the 1-byte class. -/
def first_byte_from_len (number : Nat) : Option Nat :=
  if number = 3 then some 0xfd
  else if number = 5 then some 0xfe
  else if number = 9 then some 0xff
  else none

/-- Model of `prefix_len_from_first_byte`: the total encoded length a first
byte commits the decoder to consume. -/
def prefix_len_from_first_byte (b : Nat) : Nat :=
  if b ≤ 0xfc then 1
  else if b = 0xfd then 3
  else if b = 0xfe then 5
  else 9

/-- Little-endian byte decomposition: `leBytes k n` is the low `k` bytes of
`n`, least significant first (model of `to_le_bytes` when `k` matches the
integer width). -/
def leBytes : Nat → Nat → List Nat
  | 0, _ => []
  | k + 1, n => n % 256 :: leBytes k (n / 256)

/-- Little-endian recomposition of a byte list (model of `from_le_bytes`). -/
def leDecode (l : List Nat) : Nat :=
  l.foldr (fun b acc => b + 256 * acc) 0

/-- Model of the value-reconstruction step of `read_compact_int` on the byte
source `b0 :: rest`: when the first byte commits to a multi-byte form, the
body is read with a bare `read` on `reader.take (pl - 1)` into a zeroed
8-byte buffer — so only `min (pl - 1, rest.length)` bytes are actually
copied and the remainder of the buffer stays zero — and the whole 8-byte
buffer is decoded little-endian; otherwise the first byte is the value. -/
def compact_number (b0 : Nat) (rest : List Nat) : Nat :=
  let pl := prefix_len_from_first_byte b0
  if 1 < pl then
    leDecode (rest.take (pl - 1) ++ List.replicate (8 - (rest.take (pl - 1)).length) 0)
  else b0

/-- Model of `Ser::read_compact_int` on an in-memory byte source: read one
prefix byte (`read_exact`, failing on an empty source), reconstruct the value
per `compact_number`, then reject the encoding as non-minimal when the
minimal encoded length of the reconstructed value is smaller than what the
prefix byte committed to consume. -/
def read_compact_int (bs : List Nat) : Except SerError Nat :=
  match bs with
  | [] => .error .IOError
  | b0 :: rest =>
    let number := compact_number b0 rest
    if prefix_byte_len number < prefix_len_from_first_byte b0 then
      .error .NonMinimalVarInt
    else
      .ok number

/-- Model of `Ser::write_comapct_int` (name as in the source) writing into a
`Vec<u8>` sink: emit either the single value byte (`number as u8`), or the
class flag followed by the first `pl - 1` bytes of the 8-byte little-endian
form; the returned count is the bytes written. -/
def write_comapct_int (n : Nat) : List Nat × Nat :=
  let pl := prefix_byte_len n
  match first_byte_from_len pl with
  | none => ([n % 256], 1)
  | some fb => (fb :: (leBytes 8 n).take (pl - 1), 1 + ((leBytes 8 n).take (pl - 1)).length)

/-- Modelled from the spec: the four-class compact-size encoding table of
§4.1 (1 byte for `0..=0xfc`; flag `0xfd` + 2-byte LE; flag `0xfe` + 4-byte
LE; flag `0xff` + 8-byte LE).  Written from the spec's words, to be compared
with `write_comapct_int`, which is translated from the source. -/
def compact_int_table_bytes (n : Nat) : List Nat :=
  if n ≤ 0xfc then [n]
  else if n ≤ 0xffff then 0xfd :: leBytes 2 n
  else if n ≤ 0xffffffff then 0xfe :: leBytes 4 n
  else 0xff :: leBytes 8 n

theorem leBytes_length (k n : Nat) : (leBytes k n).length = k := by
  induction k generalizing n with
  | zero => rfl
  | succ k ih => simp [leBytes, ih]

theorem take_leBytes (k : Nat) : ∀ j n, k ≤ j → (leBytes j n).take k = leBytes k n := by
  induction k with
  | zero => intro j n _; simp [leBytes]
  | succ k ih =>
    intro j n hj
    match j with
    | j + 1 =>
      simp only [leBytes, List.take_succ_cons]
      rw [ih j (n / 256) (Nat.succ_le_succ_iff.mp hj)]

theorem leDecode_append_zeros (xs : List Nat) (j : Nat) :
    leDecode (xs ++ List.replicate j 0) = leDecode xs := by
  induction xs with
  | nil =>
    simp only [List.nil_append]
    induction j with
    | zero => rfl
    | succ j ih => simpa [leDecode, List.replicate_succ] using ih
  | cons x xs ih => simp [leDecode, List.foldr_append] at ih ⊢; omega

theorem leDecode_leBytes (k : Nat) : ∀ n, leDecode (leBytes k n) = n % 256 ^ k := by
  induction k with
  | zero => intro n; simp [leBytes, leDecode, Nat.mod_one]
  | succ k ih =>
    intro n
    have h : leDecode (leBytes (k + 1) n) = n % 256 + 256 * leDecode (leBytes k (n / 256)) := by
      simp [leBytes, leDecode]
    rw [h, ih (n / 256), pow_succ, mul_comm (256 ^ k) 256, Nat.mod_mul]

/-- Helper: the bytes `write_comapct_int` emits agree with the spec's
four-class table, and the returned count is `prefix_byte_len`. -/
theorem write_comapct_int_eq (n : Nat) :
    (write_comapct_int n).1 = compact_int_table_bytes n ∧
    (write_comapct_int n).2 = prefix_byte_len n := by
  unfold write_comapct_int compact_int_table_bytes prefix_byte_len first_byte_from_len
  split_ifs with h1 h2 h3
  · have hlt : n < 256 := by omega
    simp [Nat.mod_eq_of_lt hlt]
  · simp [take_leBytes 2 8 n (by norm_num), leBytes_length]
  · simp [take_leBytes 4 8 n (by norm_num), leBytes_length]
  · simp [take_leBytes 8 8 n (by norm_num), leBytes_length]

/-- C1: whenever the minimal encoded length of the value reconstructed by
`read_compact_int` is strictly smaller than the length the prefix byte
committed to consume, the decoder returns the `NonMinimalVarInt` error (so it
never returns the decoded value); in particular `[0xfd, 0x05, 0x00]` fails
with that error. -/
theorem readCompactInt_rejects_nonminimal :
    (∀ b0 rest, prefix_byte_len (compact_number b0 rest) < prefix_len_from_first_byte b0 →
      read_compact_int (b0 :: rest) = .error SerError.NonMinimalVarInt) ∧
    read_compact_int [0xfd, 0x05, 0x00] = .error SerError.NonMinimalVarInt := by
  constructor
  · intro b0 rest h
    simp only [read_compact_int, if_pos h]
  · rfl

/-- Witness for C1 at the concrete input `[0xfd, 0x05, 0x00]`. -/
theorem readCompactInt_rejects_nonminimal_witness :
    read_compact_int [0xfd, 0x05, 0x00] = .error SerError.NonMinimalVarInt :=
  readCompactInt_rejects_nonminimal.1 0xfd [0x05, 0x00] (by decide)

/-- C2: `write_comapct_int` emits exactly the four-class encoding of the
spec's table, returns `prefix_byte_len` of the value as its count, and
matches the five boundary examples. -/
theorem writeCompactInt_encoding_table :
    (∀ n, (write_comapct_int n).1 = compact_int_table_bytes n ∧
      (write_comapct_int n).2 = prefix_byte_len n) ∧
    write_comapct_int 0xfc = ([0xfc], 1) ∧
    write_comapct_int 0xfd = ([0xfd, 0xfd, 0x00], 3) ∧
    write_comapct_int 0x10000 = ([0xfe, 0x00, 0x00, 0x01, 0x00], 5) ∧
    (write_comapct_int 0xffffffff).1.length = 5 ∧
    (write_comapct_int 0x100000000).1.length = 9 := by
  refine ⟨write_comapct_int_eq, by decide, by decide, by decide, by decide, by decide⟩

/-- C3: encoding any `u64` value with `write_comapct_int` and decoding the
resulting buffer with `read_compact_int` returns the value. -/
theorem compactInt_roundtrip (n : Nat) (hn : n < 2 ^ 64) :
    read_compact_int (write_comapct_int n).1 = .ok n := by
  rw [(write_comapct_int_eq n).1]
  unfold compact_int_table_bytes
  split_ifs with h1 h2 h3
  · have hpl : prefix_len_from_first_byte n = 1 := by
      unfold prefix_len_from_first_byte; rw [if_pos h1]
    have hnum : compact_number n [] = n := by
      unfold compact_number; rw [hpl]; simp
    simp only [read_compact_int, hnum, hpl]
    have : prefix_byte_len n = 1 := by unfold prefix_byte_len; rw [if_pos h1]
    simp [this]
  · have hnum : compact_number 0xfd (leBytes 2 n) = n := by
      unfold compact_number prefix_len_from_first_byte
      norm_num
      rw [List.take_of_length_le (by rw [leBytes_length]), leBytes_length,
        leDecode_append_zeros, leDecode_leBytes]
      exact Nat.mod_eq_of_lt (lt_of_le_of_lt h2 (by norm_num))
    have hpl : prefix_len_from_first_byte 0xfd = 3 := by decide
    have hmin : prefix_byte_len n = 3 := by
      unfold prefix_byte_len; rw [if_neg h1, if_pos h2]
    simp only [read_compact_int, hnum, hpl, hmin]
    norm_num
  · have hnum : compact_number 0xfe (leBytes 4 n) = n := by
      unfold compact_number prefix_len_from_first_byte
      norm_num
      rw [List.take_of_length_le (by rw [leBytes_length]), leBytes_length,
        leDecode_append_zeros, leDecode_leBytes]
      exact Nat.mod_eq_of_lt (lt_of_le_of_lt h3 (by norm_num))
    have hpl : prefix_len_from_first_byte 0xfe = 5 := by decide
    have hmin : prefix_byte_len n = 5 := by
      unfold prefix_byte_len; rw [if_neg h1, if_neg h2, if_pos h3]
    simp only [read_compact_int, hnum, hpl, hmin]
    norm_num
  · have hnum : compact_number 0xff (leBytes 8 n) = n := by
      unfold compact_number prefix_len_from_first_byte
      norm_num
      rw [List.take_of_length_le (by rw [leBytes_length]), leBytes_length,
        leDecode_append_zeros, leDecode_leBytes]
      exact Nat.mod_eq_of_lt (lt_of_lt_of_le hn (by norm_num))
    have hpl : prefix_len_from_first_byte 0xff = 9 := by decide
    have hmin : prefix_byte_len n = 9 := by
      unfold prefix_byte_len; rw [if_neg h1, if_neg h2, if_neg h3]
    simp only [read_compact_int, hnum, hpl, hmin]
    norm_num

/-- Witness for C3 at the concrete value 300. -/
theorem compactInt_roundtrip_witness :
    read_compact_int (write_comapct_int 300).1 = .ok 300 :=
  compactInt_roundtrip 300 (by norm_num)

/-- C4 evaluation: on the truncated source `[0xfd, 0xfd]` — whose prefix byte
commits to a 2-byte body but only one body byte is present — the source's
`read_compact_int` returns `Ok 0xfd` rather than an error, because
`body.read(&mut buf)` copies only the available byte into the zeroed buffer
and the byte count it returns is discarded. -/
theorem readCompactInt_truncated_body_ok :
    read_compact_int [0xfd, 0xfd] = .ok 0xfd := by rfl

/-- Model of `impl Ser for u8`, `serialize`: write the single byte
(`self.to_le_bytes()`) into a `Vec<u8>` sink and return the count 1. -/
def u8_serialize (b : Nat) : List Nat × Nat := ([b], 1)

/-- Model of `impl Ser for u8`, `serialized_length`: always 1. -/
def u8_serialized_length : Nat := 1

/-- Model of `impl Ser for u8`, `deserialize`: `read_exact` one byte (failing
on an empty source) and return it; the `limit` argument is ignored. -/
def u8_deserialize (bs : List Nat) (_limit : Nat) : Except SerError (Nat × List Nat) :=
  match bs with
  | [] => .error .IOError
  | b :: rest => .ok (b, rest)

/-- Model of `impl Ser for Hash256Digest`, `serialize`: write the 32 raw
bytes of the digest into the sink; a `Vec<u8>` sink reports the full length
written. -/
def hash256_serialize (h : List Nat) : List Nat × Nat := (h, h.length)

/-- Model of `impl Ser for Hash256Digest`, `serialized_length`: always 32. -/
def hash256_serialized_length : Nat := 32

/-- Model of `impl Ser for Hash256Digest`, `deserialize`: `read_exact` 32
bytes into the digest buffer, failing when fewer remain; the `limit`
argument is ignored. -/
def hash256_deserialize (bs : List Nat) (_limit : Nat) :
    Except SerError (List Nat × List Nat) :=
  if 32 ≤ bs.length then .ok (bs.take 32, bs.drop 32) else .error .IOError

/-- Model of `impl Ser for Vec<I>`, `serialize` specialised to an infallible
`Vec<u8>` sink: concatenate each element's serialization in order and sum the
returned counts.  The element implementation is passed as the function
`ser`. -/
def vec_serialize (ser : α → List Nat × Nat) : List α → List Nat × Nat
  | [] => ([], 0)
  | x :: xs =>
    ((ser x).1 ++ (vec_serialize ser xs).1, (ser x).2 + (vec_serialize ser xs).2)

/-- Model of `impl Ser for Vec<I>`, `serialized_length`: the sum of the
elements' serialized lengths. -/
def vec_serialized_length (slen : α → Nat) (v : List α) : Nat :=
  (v.map slen).sum

/-- Model of `impl Ser for Vec<I>`, `deserialize`: read exactly `limit`
elements in order, each via the element implementation `de` called with
limit 0, propagating the first element error. -/
def vec_deserialize (de : List Nat → Nat → Except SerError (α × List Nat)) :
    List Nat → Nat → Except SerError (List α × List Nat)
  | bs, 0 => .ok ([], bs)
  | bs, limit + 1 =>
    match de bs 0 with
    | .error e => .error e
    | .ok (x, rest) =>
      match vec_deserialize de rest limit with
      | .error e => .error e
      | .ok (v, rest2) => .ok (x :: v, rest2)

/-- Model of `impl Ser for Vec<I>`, `serialize` over a general fallible
writer of state type `σ`: the source computes
`self.iter().map(|v| v.serialize(writer).unwrap()).sum()`, so an element
serialization error is hit by `unwrap` and the thread panics; the panic
outcome is modelled as `none`, a successful total as `some`.  Note no
`Except.error` is ever produced: the error never travels through the
`Result` channel. -/
def vec_serialize_unwrap (ser : σ → α → Except SerError (σ × Nat)) :
    σ → List α → Option (σ × Nat)
  | w, [] => some (w, 0)
  | w, x :: xs =>
    match ser w x with
    | .error _ => none
    | .ok (w2, n) =>
      match vec_serialize_unwrap ser w2 xs with
      | none => none
      | some (w3, m) => some (w3, n + m)

/-- Model of `impl Ser for u8`, `serialize` against a general fallible
writer: delegate the single byte to the writer's `write`. -/
def serialize_into (write : σ → List Nat → Except SerError (σ × Nat))
    (w : σ) (b : Nat) : Except SerError (σ × Nat) :=
  write w [b]

/-- A writer whose `write` always fails with an IO error, modelling a sink
that fails partway through serialization. -/
def failing_write : Unit → List Nat → Except SerError (Unit × Nat) :=
  fun _ _ => .error .IOError

/-- Helper: element-wise round-trip lifts to vectors, with arbitrary trailing
bytes preserved. -/
theorem vec_roundtrip_aux {α : Type} (s : α → List Nat × Nat)
    (de : List Nat → Nat → Except SerError (α × List Nat))
    (hrt : ∀ x rest, de ((s x).1 ++ rest) 0 = .ok (x, rest)) :
    ∀ (v : List α) (rest : List Nat),
      vec_deserialize de ((vec_serialize s v).1 ++ rest) v.length = .ok (v, rest) := by
  intro v
  induction v with
  | nil => intro rest; simp [vec_serialize, vec_deserialize]
  | cons x xs ih =>
    intro rest
    simp only [vec_serialize, List.length_cons, vec_deserialize, List.append_assoc,
      hrt x ((vec_serialize s xs).1 ++ rest), ih rest]

/-- C5: the provided `Ser` implementations round-trip — deserializing the
bytes of `serialize x` from an in-memory buffer yields `x`: for `u8` and
`Hash256Digest` under any limit, and for `Vec<I>` (elements round-tripping
under their own implementation) when the limit equals the vector's length. -/
theorem ser_roundtrip :
    (∀ b limit, b < 256 → u8_deserialize (u8_serialize b).1 limit = .ok (b, [])) ∧
    (∀ h limit, h.length = 32 →
      hash256_deserialize (hash256_serialize h).1 limit = .ok (h, [])) ∧
    (∀ {α : Type} (s : α → List Nat × Nat)
      (de : List Nat → Nat → Except SerError (α × List Nat)),
      (∀ x rest, de ((s x).1 ++ rest) 0 = .ok (x, rest)) →
      ∀ v : List α, vec_deserialize de (vec_serialize s v).1 v.length = .ok (v, [])) := by
  refine ⟨fun b limit _ => rfl, fun h limit hlen => ?_, ?_⟩
  · simp [hash256_serialize, hash256_deserialize, hlen,
      List.take_of_length_le (le_of_eq hlen), List.drop_eq_nil_of_le (le_of_eq hlen)]
  · intro α s de hrt v
    have := vec_roundtrip_aux s de hrt v []
    simpa using this

/-- Witness for C5 at concrete inputs: the byte 7, the all-zero digest, and
the vector `[1, 2]` of bytes. -/
theorem ser_roundtrip_witness :
    u8_deserialize (u8_serialize 7).1 0 = .ok (7, []) ∧
    hash256_deserialize (hash256_serialize (List.replicate 32 0)).1 0 =
      .ok (List.replicate 32 0, []) ∧
    vec_deserialize u8_deserialize (vec_serialize u8_serialize [1, 2]).1 2 =
      .ok ([1, 2], []) :=
  ⟨ser_roundtrip.1 7 0 (by norm_num),
   ser_roundtrip.2.1 (List.replicate 32 0) 0 (by simp),
   ser_roundtrip.2.2 u8_serialize u8_deserialize (fun x rest => rfl) [1, 2]⟩

/-- C6: `serialized_length` agrees with both the number of bytes `serialize`
appends to an in-memory sink and the count `serialize` returns: 1 for `u8`,
32 for `Hash256Digest`, and the sum of element lengths for a vector whose
elements are themselves consistent. -/
theorem serialized_length_consistent :
    (∀ b : Nat, u8_serialized_length = (u8_serialize b).1.length ∧
      u8_serialized_length = (u8_serialize b).2) ∧
    (∀ h : List Nat, h.length = 32 →
      hash256_serialized_length = (hash256_serialize h).1.length ∧
      hash256_serialized_length = (hash256_serialize h).2) ∧
    (∀ {α : Type} (s : α → List Nat × Nat) (slen : α → Nat),
      (∀ x, slen x = (s x).1.length ∧ slen x = (s x).2) →
      ∀ v : List α, vec_serialized_length slen v = (vec_serialize s v).1.length ∧
        vec_serialized_length slen v = (vec_serialize s v).2) := by
  refine ⟨fun b => ⟨rfl, rfl⟩, fun h hlen => ?_, ?_⟩
  · simp [hash256_serialize, hash256_serialized_length, hlen]
  · intro α s slen helem v
    induction v with
    | nil => exact ⟨rfl, rfl⟩
    | cons x xs ih =>
      have hx := helem x
      simp only [vec_serialized_length, List.map_cons, List.sum_cons, vec_serialize,
        List.length_append] at ih ⊢
      omega

/-- Witness for C6 at concrete inputs: the all-zero digest and the byte
vector `[5]`. -/
theorem serialized_length_consistent_witness :
    (hash256_serialized_length = (hash256_serialize (List.replicate 32 0)).1.length ∧
      hash256_serialized_length = (hash256_serialize (List.replicate 32 0)).2) ∧
    (vec_serialized_length (fun _ => 1) [5] = (vec_serialize u8_serialize [5]).1.length ∧
      vec_serialized_length (fun _ => 1) [5] = (vec_serialize u8_serialize [5]).2) :=
  ⟨serialized_length_consistent.2.1 (List.replicate 32 0) (by simp),
   serialized_length_consistent.2.2 u8_serialize (fun _ => 1)
     (fun x => ⟨rfl, rfl⟩) [5]⟩

/-- A byte source holds (at least) `n` leading element encodings for the
element implementation `de` when `n` successive element reads succeed. -/
def holds_n_elements (de : List Nat → Nat → Except SerError (α × List Nat)) :
    Nat → List Nat → Prop
  | 0, _ => True
  | n + 1, bs => ∃ x rest, de bs 0 = .ok (x, rest) ∧ holds_n_elements de n rest

/-- C7: `Vec::deserialize` with limit `N` on a source holding at least `N`
element encodings succeeds with a vector of exactly `N` elements; for the
provided `u8` elements it consumes exactly the first `N` bytes and leaves the
rest untouched no matter how many remain; and the non-collection
implementations return the same result for every value of `limit`. -/
theorem vec_limit_exact :
    (∀ {α : Type} (de : List Nat → Nat → Except SerError (α × List Nat))
      (N : Nat) (bs : List Nat), holds_n_elements de N bs →
      ∃ v rest, vec_deserialize de bs N = .ok (v, rest) ∧ v.length = N) ∧
    (∀ (N : Nat) (bs : List Nat), N ≤ bs.length →
      vec_deserialize u8_deserialize bs N = .ok (bs.take N, bs.drop N)) ∧
    (∀ bs l1 l2, u8_deserialize bs l1 = u8_deserialize bs l2 ∧
      hash256_deserialize bs l1 = hash256_deserialize bs l2) := by
  refine ⟨?_, ?_, fun bs l1 l2 => ⟨rfl, rfl⟩⟩
  · intro α de N
    induction N with
    | zero => intro bs _; exact ⟨[], bs, rfl, rfl⟩
    | succ N ih =>
      intro bs hbs
      obtain ⟨x, rest, hde, hrest⟩ := hbs
      obtain ⟨v, rest2, hvec, hlen⟩ := ih rest hrest
      refine ⟨x :: v, rest2, ?_, by simp [hlen]⟩
      simp only [vec_deserialize, hde, hvec]
  · intro N
    induction N with
    | zero => intro bs _; simp [vec_deserialize]
    | succ N ih =>
      intro bs hbs
      match bs with
      | b :: rest =>
        have hr := ih rest (by simpa using hbs)
        simp only [vec_deserialize, u8_deserialize, hr, List.take_succ_cons,
          List.drop_succ_cons]

/-- Witness for C7 at the concrete source `[9, 8, 7]` with limit 2. -/
theorem vec_limit_exact_witness :
    (∃ v rest, vec_deserialize u8_deserialize [9, 8, 7] 2 = .ok (v, rest) ∧
      v.length = 2) ∧
    vec_deserialize u8_deserialize [9, 8, 7] 2 = .ok ([9, 8], [7]) :=
  ⟨vec_limit_exact.1 u8_deserialize 2 [9, 8, 7]
      ⟨9, [8, 7], rfl, 8, [7], rfl, trivial⟩,
   vec_limit_exact.2.1 2 [9, 8, 7] (by norm_num)⟩

/-- C8 evaluation: serializing the vector `[1]` of bytes into a writer whose
`write` fails does not report the failure through the returned `Result`: the
source unwraps each element's result, so the failure becomes a panic
(modelled as `none`) and never an `Except.error` value the caller could
branch on. -/
theorem vec_serialize_unwrap_panics :
    vec_serialize_unwrap (serialize_into failing_write) () [1] = none := rfl

/-- Model of `Hash256Writer` from `hash256.rs`: the incremental SHA-256 state
is represented by the list of all bytes fed to it so far; the external
`sha2` primitive guarantees that incremental updates hash the concatenation
of the written chunks. -/
structure Hash256Writer where
  internal : List Nat

/-- Model of `impl Write for Hash256Writer`: `write` feeds the buffer to the
internal hasher (append to the accumulated bytes) and returns the number of
bytes consumed. -/
def Hash256Writer.write (w : Hash256Writer) (buf : List Nat) : Hash256Writer × Nat :=
  (⟨w.internal ++ buf⟩, buf.length)

/-- Model of `Hash256Writer::finish`: take the first-round digest of the
accumulated bytes (`self.internal.result()`), then hash that digest once more
(`Sha256::digest(&first)`).  The external SHA-256 one-shot primitive is the
parameter `sha256`. -/
def Hash256Writer.finish (sha256 : List Nat → List Nat) (w : Hash256Writer) : List Nat :=
  sha256 (sha256 w.internal)

/-- Fold a sequence of `write` calls over a writer, as a caller performing
multiple writes would. -/
def writeChunks (w : Hash256Writer) (chunks : List (List Nat)) : Hash256Writer :=
  chunks.foldl (fun acc c => (acc.write c).1) w

/-- Helper: a sequence of writes accumulates the concatenation of the
chunks. -/
theorem writeChunks_internal (chunks : List (List Nat)) :
    ∀ w : Hash256Writer, (writeChunks w chunks).internal = w.internal ++ chunks.flatten := by
  induction chunks with
  | nil => intro w; simp [writeChunks]
  | cons c cs ih =>
    intro w
    simp [writeChunks, Hash256Writer.write, List.flatten] at ih ⊢
    rw [ih]
    simp

/-- C9: for every sequence of write calls on a fresh `Hash256Writer`,
`finish` returns the double-round digest — the base hash applied to the
concatenation of all bytes ever written, then applied again to that first
output — and (when the base primitive emits 32-byte digests) the result is
32 bytes. -/
theorem hash256Writer_double_round (sha256 : List Nat → List Nat)
    (chunks : List (List Nat)) (hlen : ∀ bs, (sha256 bs).length = 32) :
    Hash256Writer.finish sha256 (writeChunks ⟨[]⟩ chunks) =
      sha256 (sha256 chunks.flatten) ∧
    (Hash256Writer.finish sha256 (writeChunks ⟨[]⟩ chunks)).length = 32 := by
  have h : (writeChunks ⟨[]⟩ chunks).internal = chunks.flatten := by
    simpa using writeChunks_internal chunks ⟨[]⟩
  constructor
  · simp [Hash256Writer.finish, h]
  · simp [Hash256Writer.finish, hlen]

/-- Witness for C9 with the constant all-zero 32-byte primitive and the
two-chunk write pattern `[0]`, `[0]`. -/
theorem hash256Writer_double_round_witness :
    Hash256Writer.finish (fun _ => List.replicate 32 0) (writeChunks ⟨[]⟩ [[0], [0]]) =
      List.replicate 32 0 ∧
    (Hash256Writer.finish (fun _ => List.replicate 32 0)
      (writeChunks ⟨[]⟩ [[0], [0]])).length = 32 :=
  ⟨(hash256Writer_double_round (fun _ => List.replicate 32 0) [[0], [0]]
      (fun _ => by simp)).1,
   (hash256Writer_double_round (fun _ => List.replicate 32 0) [[0], [0]]
      (fun _ => by simp)).2⟩

/-- Lowercase hex digit (as an ASCII code) of a nibble, as `hex::encode`
produces. -/
def hexCharOfNibble (n : Nat) : Nat :=
  if n < 10 then 48 + n else 87 + n

/-- Nibble value of an ASCII hex digit (upper or lower case), as
`hex::decode` accepts; `none` on a non-hex character. -/
def hexNibbleOfChar (c : Nat) : Option Nat :=
  if 48 ≤ c ∧ c ≤ 57 then some (c - 48)
  else if 97 ≤ c ∧ c ≤ 102 then some (c - 87)
  else if 65 ≤ c ∧ c ≤ 70 then some (c - 55)
  else none

/-- Model of `hex::encode`: two lowercase hex digits per byte, high nibble
first.  Text is modelled as a list of ASCII codes. -/
def hex_encode : List Nat → List Nat
  | [] => []
  | b :: rest => hexCharOfNibble (b / 16) :: hexCharOfNibble (b % 16) :: hex_encode rest

/-- Model of `hex::decode`: consume digit pairs; odd length or a non-hex
character is a decode failure, surfaced as the hex error variant. -/
def hex_decode : List Nat → Except SerError (List Nat)
  | [] => .ok []
  | [_] => .error .FromHexError
  | c1 :: c2 :: rest =>
    match hexNibbleOfChar c1, hexNibbleOfChar c2, hex_decode rest with
    | some hi, some lo, .ok tail => .ok ((hi * 16 + lo) :: tail)
    | _, _, _ => .error .FromHexError

theorem hexNibble_rt : ∀ n < 16, hexNibbleOfChar (hexCharOfNibble n) = some n := by decide

theorem hex_roundtrip (bs : List Nat) (hb : ∀ b ∈ bs, b < 256) :
    hex_decode (hex_encode bs) = .ok bs := by
  induction bs with
  | nil => rfl
  | cons b rest ih =>
    have hb256 : b < 256 := hb b (by simp)
    have h1 := hexNibble_rt (b / 16) (by omega)
    have h2 := hexNibble_rt (b % 16) (by omega)
    have ih2 := ih (fun x hx => hb x (by simp [hx]))
    simp only [hex_encode, hex_decode, h1, h2, ih2]
    have hbe : b / 16 * 16 + b % 16 = b := by omega
    rw [hbe]

/-- ASCII code of the RFC 4648 standard-alphabet character for a sextet. -/
def b64CharOfSextet (n : Nat) : Nat :=
  if n < 26 then 65 + n
  else if n < 52 then 71 + n
  else if n < 62 then n - 4
  else if n = 62 then 43
  else 47

/-- Sextet value of an RFC 4648 standard-alphabet ASCII code; `none` for a
character outside the alphabet (including the padding sign). -/
def b64SextetOfChar (c : Nat) : Option Nat :=
  if 65 ≤ c ∧ c ≤ 90 then some (c - 65)
  else if 97 ≤ c ∧ c ≤ 122 then some (c - 71)
  else if 48 ≤ c ∧ c ≤ 57 then some (c + 4)
  else if c = 43 then some 62
  else if c = 47 then some 63
  else none

/-- Model of `base64::encode` with the standard non-URL-safe alphabet:
3-byte groups become 4 characters; a trailing 1- or 2-byte group is padded
with the padding sign (ASCII 61). -/
def base64_encode : List Nat → List Nat
  | [] => []
  | [b1] => [b64CharOfSextet (b1 / 4), b64CharOfSextet (b1 % 4 * 16), 61, 61]
  | [b1, b2] => [b64CharOfSextet (b1 / 4), b64CharOfSextet (b1 % 4 * 16 + b2 / 16),
      b64CharOfSextet (b2 % 16 * 4), 61]
  | b1 :: b2 :: b3 :: rest =>
    b64CharOfSextet (b1 / 4) :: b64CharOfSextet (b1 % 4 * 16 + b2 / 16) ::
      b64CharOfSextet (b2 % 16 * 4 + b3 / 64) :: b64CharOfSextet (b3 % 64) ::
      base64_encode rest

/-- Model of `base64::decode`: consume 4-character groups, honouring the two
padded final-group forms; anything else is a decode failure, surfaced as the
base64 error variant. -/
def base64_decode : List Nat → Except SerError (List Nat)
  | [] => .ok []
  | c1 :: c2 :: c3 :: c4 :: rest =>
    match b64SextetOfChar c1, b64SextetOfChar c2 with
    | some s1, some s2 =>
      if c3 = 61 then
        if c4 = 61 ∧ rest = [] then .ok [s1 * 4 + s2 / 16] else .error .DecodeError
      else
        match b64SextetOfChar c3 with
        | some s3 =>
          if c4 = 61 then
            if rest = [] then .ok [s1 * 4 + s2 / 16, s2 % 16 * 16 + s3 / 4]
            else .error .DecodeError
          else
            match b64SextetOfChar c4, base64_decode rest with
            | some s4, .ok tail =>
              .ok ((s1 * 4 + s2 / 16) :: (s2 % 16 * 16 + s3 / 4) ::
                (s3 % 4 * 64 + s4) :: tail)
            | _, _ => .error .DecodeError
        | none => .error .DecodeError
    | _, _ => .error .DecodeError
  | _ => .error .DecodeError

theorem b64Sextet_rt : ∀ n < 64, b64SextetOfChar (b64CharOfSextet n) = some n := by decide

theorem b64Char_ne_pad : ∀ n < 64, b64CharOfSextet n ≠ 61 := by decide

theorem base64_roundtrip (bs : List Nat) (hb : ∀ b ∈ bs, b < 256) :
    base64_decode (base64_encode bs) = .ok bs := by
  induction bs using base64_encode.induct with
  | case1 => rfl
  | case2 b1 =>
    have hb1 : b1 < 256 := hb b1 (by simp)
    have h1 := b64Sextet_rt (b1 / 4) (by omega)
    have h2 := b64Sextet_rt (b1 % 4 * 16) (by omega)
    simp only [base64_encode, base64_decode, h1, h2, if_pos rfl, and_self]
    have e1 : b1 / 4 * 4 + b1 % 4 * 16 / 16 = b1 := by omega
    rw [e1]
    simp
  | case3 b1 b2 =>
    have hb1 : b1 < 256 := hb b1 (by simp)
    have hb2 : b2 < 256 := hb b2 (by simp)
    have h1 := b64Sextet_rt (b1 / 4) (by omega)
    have h2 := b64Sextet_rt (b1 % 4 * 16 + b2 / 16) (by omega)
    have h3 := b64Sextet_rt (b2 % 16 * 4) (by omega)
    have hne3 := b64Char_ne_pad (b2 % 16 * 4) (by omega)
    simp only [base64_encode, base64_decode, h1, h2, h3, if_neg hne3, if_pos rfl]
    have e1 : b1 / 4 * 4 + (b1 % 4 * 16 + b2 / 16) / 16 = b1 := by omega
    have e2 : (b1 % 4 * 16 + b2 / 16) % 16 * 16 + b2 % 16 * 4 / 4 = b2 := by omega
    rw [e1, e2]
    simp
  | case4 b1 b2 b3 rest ih =>
    have hb1 : b1 < 256 := hb b1 (by simp)
    have hb2 : b2 < 256 := hb b2 (by simp)
    have hb3 : b3 < 256 := hb b3 (by simp)
    have h1 := b64Sextet_rt (b1 / 4) (by omega)
    have h2 := b64Sextet_rt (b1 % 4 * 16 + b2 / 16) (by omega)
    have h3 := b64Sextet_rt (b2 % 16 * 4 + b3 / 64) (by omega)
    have h4 := b64Sextet_rt (b3 % 64) (by omega)
    have hne3 := b64Char_ne_pad (b2 % 16 * 4 + b3 / 64) (by omega)
    have hne4 := b64Char_ne_pad (b3 % 64) (by omega)
    have ih2 := ih (fun x hx => hb x (by simp [hx]))
    simp only [base64_encode, base64_decode, h1, h2, h3, h4, if_neg hne3, if_neg hne4, ih2]
    have e1 : b1 / 4 * 4 + (b1 % 4 * 16 + b2 / 16) / 16 = b1 := by omega
    have e2 : (b1 % 4 * 16 + b2 / 16) % 16 * 16 + (b2 % 16 * 4 + b3 / 64) / 4 = b2 := by omega
    have e3 : (b2 % 16 * 4 + b3 / 64) % 4 * 64 + b3 % 64 = b3 := by omega
    rw [e1, e2, e3]

/-- Model of `Ser::serialize_hex`: serialize into a fresh in-memory buffer,
then hex-encode it. -/
def serialize_hex_of (ser : α → List Nat × Nat) (x : α) : List Nat :=
  hex_encode (ser x).1

/-- Model of `Ser::serialize_base64`: serialize into a fresh in-memory
buffer, then base64-encode it. -/
def serialize_base64_of (ser : α → List Nat × Nat) (x : α) : List Nat :=
  base64_encode (ser x).1

/-- Model of `Ser::deserialize_hex`: hex-decode the text (propagating the
decode error), then delegate to `deserialize` over the decoded buffer with
limit 0, returning the reconstructed value. -/
def deserialize_hex_of (de : List Nat → Nat → Except SerError (α × List Nat))
    (s : List Nat) : Except SerError α :=
  match hex_decode s with
  | .error e => .error e
  | .ok v =>
    match de v 0 with
    | .error e => .error e
    | .ok (x, _) => .ok x

/-- Model of `Ser::deserialize_base64`: base64-decode the text (propagating
the decode error), then delegate to `deserialize` over the decoded buffer
with limit 0, returning the reconstructed value. -/
def deserialize_base64_of (de : List Nat → Nat → Except SerError (α × List Nat))
    (s : List Nat) : Except SerError α :=
  match base64_decode s with
  | .error e => .error e
  | .ok v =>
    match de v 0 with
    | .error e => .error e
    | .ok (x, _) => .ok x

/-- C10 counterexample: for the nonempty byte vector `[1]`, the textual
round-trip fails — `deserialize_hex(serialize_hex([1]))` returns the empty
vector (the delegate call uses limit 0), not `[1]`. -/
theorem vec_hex_roundtrip_fails :
    deserialize_hex_of (vec_deserialize u8_deserialize)
      (serialize_hex_of (vec_serialize u8_serialize) [1]) = .ok [] ∧
    ([] : List Nat) ≠ [1] := ⟨rfl, by simp⟩

/-- C10 (amended): the hex and base64 textual round-trips hold for every
`u8` and every `Hash256Digest`; for `Vec<I>` the textual deserialization of
any serialized buffer yields the empty vector, because the delegate call
passes limit 0 — so the vector round-trip holds exactly for the empty
vector. -/
theorem textual_roundtrip_amended :
    (∀ b : Nat, b < 256 →
      deserialize_hex_of u8_deserialize (serialize_hex_of u8_serialize b) = .ok b ∧
      deserialize_base64_of u8_deserialize (serialize_base64_of u8_serialize b) = .ok b) ∧
    (∀ h : List Nat, h.length = 32 → (∀ x ∈ h, x < 256) →
      deserialize_hex_of hash256_deserialize (serialize_hex_of hash256_serialize h) =
        .ok h ∧
      deserialize_base64_of hash256_deserialize (serialize_base64_of hash256_serialize h) =
        .ok h) ∧
    (∀ {α : Type} (de : List Nat → Nat → Except SerError (α × List Nat))
      (bytes : List Nat), (∀ b ∈ bytes, b < 256) →
      deserialize_hex_of (vec_deserialize de) (hex_encode bytes) = .ok [] ∧
      deserialize_base64_of (vec_deserialize de) (base64_encode bytes) = .ok []) := by
  refine ⟨fun b hb => ?_, fun h hlen hb => ?_, fun {α} de bytes hb => ?_⟩
  · have hhex := hex_roundtrip [b] (by simpa using hb)
    have hb64 := base64_roundtrip [b] (by simpa using hb)
    constructor
    · simp only [deserialize_hex_of, serialize_hex_of, u8_serialize, hhex, u8_deserialize]
    · simp only [deserialize_base64_of, serialize_base64_of, u8_serialize, hb64,
        u8_deserialize]
  · have hhex := hex_roundtrip h hb
    have hb64 := base64_roundtrip h hb
    have hde : hash256_deserialize h 0 = .ok (h, []) := by
      simp [hash256_deserialize, hlen, List.take_of_length_le (le_of_eq hlen),
        List.drop_eq_nil_of_le (le_of_eq hlen)]
    constructor
    · simp only [deserialize_hex_of, serialize_hex_of, hash256_serialize, hhex, hde]
    · simp only [deserialize_base64_of, serialize_base64_of, hash256_serialize, hb64, hde]
  · have hhex := hex_roundtrip bytes hb
    have hb64 := base64_roundtrip bytes hb
    constructor
    · simp only [deserialize_hex_of, hhex, vec_deserialize]
    · simp only [deserialize_base64_of, hb64, vec_deserialize]

/-- Witness for C10 (amended) at the concrete byte 5 and the all-zero
digest. -/
theorem textual_roundtrip_amended_witness :
    (deserialize_hex_of u8_deserialize (serialize_hex_of u8_serialize 5) = .ok 5 ∧
      deserialize_base64_of u8_deserialize (serialize_base64_of u8_serialize 5) = .ok 5) ∧
    (deserialize_hex_of hash256_deserialize
        (serialize_hex_of hash256_serialize (List.replicate 32 0)) =
      .ok (List.replicate 32 0) ∧
      deserialize_base64_of hash256_deserialize
        (serialize_base64_of hash256_serialize (List.replicate 32 0)) =
      .ok (List.replicate 32 0)) :=
  ⟨textual_roundtrip_amended.1 5 (by norm_num),
   textual_roundtrip_amended.2.1 (List.replicate 32 0) (by simp) (by simp)⟩
